import Mathlib

/-!
Shallow embedding of `src/ontology_search.py` (repository `sh-ikeda/ontology_search`).

The program resolves free-text queries against an ontology ("Term Store"):
a one-time normalization pass (`add_lowercase_synonyms`) materializes
lower-cased broad synonyms, then `search_ontology_term` runs a tiered
cascade (exact full-query lookups, then word-decomposition lookups by
decreasing word count) and `main` prints one TSV row per hit.

Python strings are modelled as Lean `String`; the ontology is a list of
concepts; the Term Store lookup primitive (owlready2 `ontology.search`,
an external collaborator per spec section 6) is modelled as exact
case-sensitive equality filtering with extra attribute-equality
conditions, with the keyword-dictionary merge of source lines 85-86
(`search_kwargs.update(additional_conditions)`) modelled explicitly:
a condition whose attribute name equals the base attribute overrides
the base value, exactly as a Python dict update does.
-/

/-- A concept (an owlready2 class) of the loaded ontology.  `name` is the
stable identifier, `label` the ordered label list, `hasExactSynonym` and
`hasBroadSynonym` the two synonym collections, and `attrs` holds any
further attribute/value pairs (for example `hasDbXref`) that extra search
conditions may constrain. -/
structure OntClass where
  name : String
  label : List String
  hasExactSynonym : List String
  hasBroadSynonym : List String
  attrs : List (String × String)
  deriving DecidableEq

/-- A raw hit of `search_ontology_term`: the Python 4-tuple
`(term, match_type, matched_part, matched_synonym)`. -/
structure Hit where
  term : OntClass
  matchType : String
  matchedPart : String
  matchedSynonym : Option String
  deriving DecidableEq

/-- Attribute access of the Term Store: the three synonym/label channels
are structure fields, anything else is looked up in `attrs`. -/
def attrValues (c : OntClass) (a : String) : List String :=
  if a = "label" then c.label
  else if a = "hasExactSynonym" then c.hasExactSynonym
  else if a = "hasBroadSynonym" then c.hasBroadSynonym
  else (c.attrs.filter (fun p => p.1 = a)).map (fun p => p.2)

/-- The Term Store search primitive (`ontology.search(**search_kwargs)`),
modelled from spec section 6 as exact case-sensitive equality.  The
criteria dictionary is `{attr: val}` updated with `conds`, so a condition
whose key equals `attr` overrides the base pair (Python dict-update
semantics of source lines 85-86). -/
def searchBy (ont : List OntClass) (attr val : String)
    (conds : List (String × String)) : List OntClass :=
  let crit := (if conds.any (fun p => p.1 = attr) then [] else [(attr, val)]) ++ conds
  ont.filter (fun c => crit.all (fun p => decide (p.2 ∈ attrValues c p.1)))

/-- `get_term_label` (source lines 224-230): first label if the label list
is non-empty, otherwise the concept name. -/
def get_term_label (c : OntClass) : String :=
  match c.label with
  | [] => c.name
  | l :: _ => l

/-- Python `str.lower()`, modelled as per-character lowering (the two
agree on the ASCII strings the program handles). -/
def strLower (s : String) : String :=
  ⟨s.data.map Char.toLower⟩

/-- Python `str.strip()`: drop whitespace from both ends. -/
def pyStrip (s : String) : String :=
  ⟨((s.data.dropWhile Char.isWhitespace).reverse.dropWhile Char.isWhitespace).reverse⟩

/-- Splitting a character list at every character satisfying `p`, the
semantics of Python `re.split` on a single-character class (adjacent
separators produce empty parts; the result is always non-empty). -/
def splitOnPred (p : Char → Bool) : List Char → List (List Char)
  | [] => [[]]
  | c :: cs =>
    if p c then [] :: splitOnPred p cs
    else
      match splitOnPred p cs with
      | [] => [[c]]
      | w :: ws => (c :: w) :: ws

/-- Separator predicate of the decomposer: the regex class `[ _\-.]`
of source line 22. -/
def sepChar (c : Char) : Bool :=
  c = ' ' || c = '_' || c = '-' || c = '.'

/-- `re.split(r'[ _\-.]', text.strip())` followed by dropping empty
strings (source lines 22-23). -/
def splitWords (text : String) : List String :=
  ((splitOnPred sepChar (pyStrip text).data).map String.mk).filter (fun w => w ≠ "")

/-- `" ".join(ws)`. -/
def joinSpace (ws : List String) : String :=
  String.intercalate " " ws

/-- The inner loop of `generate_word_combinations` (source lines 29-31):
all windows of `len` consecutive words, joined by spaces, in
left-to-right offset order. -/
def windowsOfLen (words : List String) (len : Nat) : List String :=
  (List.range (words.length - len + 1)).map
    (fun i => joinSpace ((words.drop i).take len))

/-- The outer loop of `generate_word_combinations` (source line 28):
window lengths from `len` down to `1`. -/
def combosDown (words : List String) : Nat → List String
  | 0 => []
  | len + 1 => windowsOfLen words (len + 1) ++ combosDown words len

/-- `generate_word_combinations` (source lines 15-33). -/
def generate_word_combinations (text : String) : List String :=
  let ws := splitWords text
  combosDown ws ws.length

/-- `len(combination.split())`: Python whitespace split drops empty
tokens (source line 139). -/
def wordCount (s : String) : Nat :=
  (((splitOnPred Char.isWhitespace s.data).map String.mk).filter (fun w => w ≠ "")).length

/-- The broad-synonym post-processing loop shared by both tiers (source
lines 110-127 with `checkPart = false`, lines 175-192 with
`checkPart = true`): each concept returned by the broad-synonym lookup is
reclassified to a `label` hit when its lower-cased label equals the
lower-cased searched part (skipped when an equal label hit is already
accumulated; the tier-2 variant also compares the matched part), else to
a `hasExactSynonym` hit carrying the first exact synonym whose lower-cased
form equals the lower-cased part, unless that synonym is a pure case
variant of the label. -/
def processBroad (checkPart : Bool) (part : String)
    (broadResults : List OntClass) (acc : List Hit) : List Hit :=
  broadResults.foldl (fun acc term =>
    let tl := get_term_label term
    if strLower tl = strLower part then
      if acc.any (fun r => decide (r.term = term ∧ r.matchType = "label" ∧
          (checkPart = true → r.matchedPart = part))) then
        acc
      else
        acc ++ [⟨term, "label", part, none⟩]
    else
      match term.hasExactSynonym.find? (fun syn => strLower syn = strLower part) with
      | some syn =>
        if strLower syn ≠ strLower tl then
          acc ++ [⟨term, "hasExactSynonym", part, some syn⟩]
        else
          acc
      | none => acc) acc

/-- The exact-match tier of `search_ontology_term` (source lines 80-127):
label, exact-synonym and broad-synonym lookups on the full undecomposed
query.  In the exact-synonym loop the first synonym string equal to the
query is the query itself, so the emitted matched-synonym text is the
query. -/
def exactTier (ont : List OntClass) (query : String)
    (conds : List (String × String)) : List Hit :=
  let r1 := (searchBy ont "label" query conds).map
    (fun t => (⟨t, "label", query, none⟩ : Hit))
  let r2 := (searchBy ont "hasExactSynonym" query conds).foldl
    (fun acc t =>
      if query ∈ t.hasExactSynonym then
        acc ++ [⟨t, "hasExactSynonym", query, some query⟩]
      else acc) r1
  processBroad false query (searchBy ont "hasBroadSynonym" (strLower query) conds) r2

/-- The tier-2 loop body for one sub-phrase (source lines 148-192):
the same three lookups as the exact tier, accumulating into the word-count
group results. -/
def processCombination (ont : List OntClass) (conds : List (String × String))
    (acc : List Hit) (combination : String) : List Hit :=
  let a1 := acc ++ (searchBy ont "label" combination conds).map
    (fun t => (⟨t, "label", combination, none⟩ : Hit))
  let a2 := (searchBy ont "hasExactSynonym" combination conds).foldl
    (fun a t =>
      if combination ∈ t.hasExactSynonym then
        a ++ [⟨t, "hasExactSynonym", combination, some combination⟩]
      else a) a1
  processBroad true combination
    (searchBy ont "hasBroadSynonym" (strLower combination) conds) a2

/-- All hits accumulated for one word-count group (source lines 146-192):
the sub-phrases of that word count, in generation order. -/
def groupHits (ont : List OntClass) (conds : List (String × String))
    (combos : List String) (k : Nat) : List Hit :=
  (combos.filter (fun c => wordCount c = k)).foldl (processCombination ont conds) []

/-- `sorted(combinations_by_length.keys(), reverse=True)` (source line
145): the distinct word counts occurring among the sub-phrases, in
strictly decreasing order, realized as the descending enumeration of
`0..maxKey` filtered to the occurring counts. -/
def sortedKeysDesc (combos : List String) : List Nat :=
  let counts := combos.map wordCount
  let maxK := counts.foldl max 0
  (List.range (maxK + 1)).reverse.filter (fun k => k ∈ counts)

/-- The group cascade of the decomposition tier (source lines 145-196):
return the accumulated hits of the first word-count group that yields
any, else keep descending; empty when no group matches. -/
def searchGroups (ont : List OntClass) (conds : List (String × String))
    (combos : List String) : List Nat → List Hit
  | [] => []
  | k :: ks =>
    let cur := groupHits ont conds combos k
    if cur.isEmpty then searchGroups ont conds combos ks else cur

/-- The word-decomposition tier of `search_ontology_term` (source lines
133-198). -/
def decompositionTier (ont : List OntClass) (conds : List (String × String))
    (query : String) : List Hit :=
  searchGroups ont conds (generate_word_combinations query)
    (sortedKeysDesc (generate_word_combinations query))

/-- `search_ontology_term` (source lines 72-198): the exact tier, falling
through to the decomposition tier only when the exact tier produced no
hit (source lines 129-131). -/
def search_ontology_term (ont : List OntClass) (query : String)
    (conds : List (String × String)) : List Hit :=
  let exact := exactTier ont query conds
  if exact.isEmpty then decompositionTier ont conds query else exact

/-- The per-class body of `add_lowercase_synonyms` (source lines 48-65):
collect the exact synonyms, append the lower-cased form of every exact
synonym not already present (case-sensitively) in that collected set,
then read `label[0]` — `none` models the `IndexError` raised there when
the label list is empty — and append its lower-cased form under the same
membership test. -/
def add_lowercase_synonyms_class (c : OntClass) : Option OntClass :=
  let existing := c.hasExactSynonym
  let broad1 := c.hasExactSynonym.foldl
    (fun acc syn => if strLower syn ∈ existing then acc else acc ++ [strLower syn])
    c.hasBroadSynonym
  match c.label with
  | [] => none
  | l :: _ =>
    some { c with hasBroadSynonym :=
      if (strLower l ∈ existing) then broad1 else broad1 ++ [strLower l] }

/-- `add_lowercase_synonyms` (source lines 36-69): the normalization pass
over every class of the ontology; `none` when some class has no label. -/
def add_lowercase_synonyms : List OntClass → Option (List OntClass)
  | [] => some []
  | c :: cs =>
    match add_lowercase_synonyms_class c with
    | none => none
    | some c' =>
      match add_lowercase_synonyms cs with
      | none => none
      | some cs' => some (c' :: cs')

/-- Splitting a character list at every colon, the semantics of Python
`s.split(':')`: adjacent colons produce empty parts and the result is
always non-empty. -/
def splitOnColon : List Char → List (List Char)
  | [] => [[]]
  | c :: cs =>
    if c = ':' then [] :: splitOnColon cs
    else
      match splitOnColon cs with
      | [] => [[c]]
      | w :: ws => (c :: w) :: ws

/-- Rejoining colon-separated parts, the semantics of Python
`':'.join(parts)`. -/
def joinColon : List (List Char) → List Char
  | [] => []
  | [w] => w
  | w :: ws => w ++ ':' :: joinColon ws

/-- `parse_additional_conditions` (source lines 201-221).  Python splits
with `split(':', 2)` and rejoins `parts[1:]` with `':'`, which is exactly
a split at the first colon: attribute before it, everything after it as
the value.  A non-empty string without a colon raises `ValueError`. -/
def parse_additional_conditions (condition_str : String) :
    Except String (List (String × String)) :=
  if condition_str = "" then .ok []
  else
    match splitOnColon condition_str.data with
    | [] => .error ("Invalid additional condition format: " ++ condition_str)
    | [_] => .error ("Invalid additional condition format: " ++ condition_str)
    | attr :: rest => .ok [(String.mk attr, String.mk (joinColon rest))]

/-- One output row of `main` for one hit (source lines 276-283): query,
matched part, term id (`name`), match type, term label, and the matched
synonym with `None` rendered as the empty string. -/
def formatRow (query : String) (h : Hit) : List String :=
  [query, h.matchedPart, h.term.name, h.matchType, get_term_label h.term,
   h.matchedSynonym.getD ""]

/-- The rows `main` prints for one query (source lines 274-285): one row
per hit in matcher order, or a single row with five empty columns when
there is no hit. -/
def report (query : String) (results : List Hit) : List (List String) :=
  if results.isEmpty then [[query, "", "", "", "", ""]]
  else results.map (formatRow query)

/-- The per-line processing of `main` (source lines 266-285): strip the
line, skip it entirely when empty, otherwise search and report. -/
def processLine (ont : List OntClass) (conds : List (String × String))
    (line : String) : List (List String) :=
  let query := pyStrip line
  if query = "" then [] else report query (search_ontology_term ont query conds)

/-! ### Lemmas about colon splitting (for `parse_additional_conditions`) -/

lemma splitOnColon_ne_nil (l : List Char) : splitOnColon l ≠ [] := by
  induction l with
  | nil => simp [splitOnColon]
  | cons c cs ih =>
    unfold splitOnColon
    by_cases hc : c = ':'
    · simp [hc]
    · rw [if_neg hc]
      cases h : splitOnColon cs with
      | nil => simp
      | cons w ws => simp

lemma splitOnColon_dest (cs : List Char) :
    ∃ w ws, splitOnColon cs = w :: ws := by
  cases h : splitOnColon cs with
  | nil => exact absurd h (splitOnColon_ne_nil cs)
  | cons w ws => exact ⟨w, ws, rfl⟩

lemma splitOnColon_colon_cons (cs : List Char) :
    splitOnColon (':' :: cs) = [] :: splitOnColon cs := rfl

lemma splitOnColon_cons_of_ne (c : Char) (cs : List Char) (hc : c ≠ ':')
    (w : List Char) (ws : List (List Char)) (h : splitOnColon cs = w :: ws) :
    splitOnColon (c :: cs) = (c :: w) :: ws := by
  unfold splitOnColon
  rw [if_neg hc, h]

lemma joinColon_cons (w : List Char) (ws : List (List Char)) (h : ws ≠ []) :
    joinColon (w :: ws) = w ++ ':' :: joinColon ws := by
  cases ws with
  | nil => exact absurd rfl h
  | cons a as => rfl

lemma joinColon_splitOnColon (l : List Char) : joinColon (splitOnColon l) = l := by
  induction l with
  | nil => rfl
  | cons c cs ih =>
    by_cases hc : c = ':'
    · subst hc
      rw [splitOnColon_colon_cons, joinColon_cons _ _ (splitOnColon_ne_nil cs), ih]
      rfl
    · obtain ⟨w, ws, hws⟩ := splitOnColon_dest cs
      rw [splitOnColon_cons_of_ne c cs hc w ws hws]
      rw [hws] at ih
      cases ws with
      | nil =>
        simp only [joinColon] at ih ⊢
        rw [ih]
      | cons a as =>
        rw [joinColon_cons _ _ (by simp)] at ih
        rw [joinColon_cons _ _ (by simp), List.cons_append, ih]

lemma splitOnColon_length_one_iff (l : List Char) :
    (splitOnColon l).length = 1 ↔ ':' ∉ l := by
  induction l with
  | nil => simp [splitOnColon]
  | cons c cs ih =>
    by_cases hc : c = ':'
    · subst hc
      rw [splitOnColon_colon_cons]
      obtain ⟨w, ws, hws⟩ := splitOnColon_dest cs
      rw [hws]
      simp
    · obtain ⟨w, ws, hws⟩ := splitOnColon_dest cs
      rw [splitOnColon_cons_of_ne c cs hc w ws hws]
      rw [hws] at ih
      simp only [List.length_cons] at ih ⊢
      simp only [List.mem_cons]
      constructor
      · intro hl hor
        rcases hor with h1 | h2
        · exact hc h1.symm
        · exact (ih.mp hl) h2
      · intro hni
        exact ih.mpr (fun hmem => hni (Or.inr hmem))

lemma splitOnColon_head_not_colon :
    ∀ (l : List Char) (w : List Char) (ws : List (List Char)),
      splitOnColon l = w :: ws → ':' ∉ w := by
  intro l
  induction l with
  | nil =>
    intro w ws h
    simp only [splitOnColon, List.cons.injEq] at h
    rw [← h.1]
    simp
  | cons c cs ih =>
    intro w ws h
    by_cases hc : c = ':'
    · subst hc
      rw [splitOnColon_colon_cons] at h
      rw [← (List.cons.injEq _ _ _ _).mp h |>.1]
      simp
    · obtain ⟨w0, ws0, hws⟩ := splitOnColon_dest cs
      rw [splitOnColon_cons_of_ne c cs hc w0 ws0 hws] at h
      obtain ⟨h1, h2⟩ := (List.cons.injEq _ _ _ _).mp h
      rw [← h1]
      intro hmem
      rcases List.mem_cons.mp hmem with hm1 | hm2
      · exact hc hm1.symm
      · exact ih w0 ws0 hws hm2

/-- Claim C8: `parse_additional_conditions` splits at the first colon into
attribute and value (remaining colons rejoined into the value), errors
exactly on a non-empty colon-free string, and maps the empty string to the
empty filter. -/
theorem claim_c8 :
    parse_additional_conditions "" = .ok [] ∧
    parse_additional_conditions "hasDbXref:NCBI_TaxID:9606" =
      .ok [("hasDbXref", "NCBI_TaxID:9606")] ∧
    (∀ s : String, s ≠ "" →
      ((∃ e, parse_additional_conditions s = .error e) ↔ ':' ∉ s.data)) ∧
    (∀ (s a v : String), parse_additional_conditions s = .ok [(a, v)] →
      a.data ++ ':' :: v.data = s.data ∧ ':' ∉ a.data) := by
  refine ⟨rfl, rfl, ?_, ?_⟩
  · intro s hs
    constructor
    · rintro ⟨e, he⟩
      rw [parse_additional_conditions, if_neg hs] at he
      obtain ⟨w, ws, hsp⟩ := splitOnColon_dest s.data
      rw [hsp] at he
      cases ws with
      | nil => exact (splitOnColon_length_one_iff s.data).mp (by rw [hsp]; rfl)
      | cons a as => simp at he
    · intro hnc
      have h1 : (splitOnColon s.data).length = 1 :=
        (splitOnColon_length_one_iff s.data).mpr hnc
      obtain ⟨w, hw⟩ := List.length_eq_one.mp h1
      exact ⟨"Invalid additional condition format: " ++ s, by
        rw [parse_additional_conditions, if_neg hs, hw]⟩
  · intro s a v hp
    by_cases hs : s = ""
    · rw [parse_additional_conditions, if_pos hs] at hp
      simp at hp
    · rw [parse_additional_conditions, if_neg hs] at hp
      obtain ⟨w, ws, hsp⟩ := splitOnColon_dest s.data
      rw [hsp] at hp
      cases ws with
      | nil => simp at hp
      | cons w2 ws2 =>
        simp only [Except.ok.injEq, List.cons.injEq, Prod.mk.injEq, and_true] at hp
        obtain ⟨rfl, rfl⟩ := hp
        have hdata : s.data = w ++ ':' :: joinColon (w2 :: ws2) := by
          conv_lhs => rw [← joinColon_splitOnColon s.data]
          rw [hsp, joinColon_cons _ _ (by simp)]
        exact ⟨hdata.symm, splitOnColon_head_not_colon s.data w (w2 :: ws2) hsp⟩

/-- Witness for C8: the non-empty colon-free condition string `nocolon`
is rejected. -/
theorem claim_c8_witness : ∃ e, parse_additional_conditions "nocolon" = .error e :=
  (claim_c8.2.2.1 "nocolon" (by decide)).mpr (by decide)

/-! ### Lemmas about the Synonym Normalizer -/

lemma add_lowercase_synonyms_class_isSome (c : OntClass) (h : c.label ≠ []) :
    ∃ c2, add_lowercase_synonyms_class c = some c2 := by
  unfold add_lowercase_synonyms_class
  cases hl : c.label with
  | nil => exact absurd hl h
  | cons l ls => exact ⟨_, rfl⟩

lemma foldl_addLower (existing : List String) :
    ∀ (syns base : List String),
      ∃ added,
        syns.foldl (fun acc syn =>
          if strLower syn ∈ existing then acc else acc ++ [strLower syn]) base =
          base ++ added ∧
        ∀ s ∈ added, s ∉ existing ∧ ∃ t ∈ syns, s = strLower t := by
  intro syns
  induction syns with
  | nil => exact fun base => ⟨[], by simp, by simp⟩
  | cons syn rest ih =>
    intro base
    by_cases h : strLower syn ∈ existing
    · obtain ⟨a, ha, hp⟩ := ih base
      refine ⟨a, ?_, ?_⟩
      · simpa [List.foldl_cons, if_pos h] using ha
      · intro s hs
        obtain ⟨t, ht, he⟩ := (hp s hs).2
        exact ⟨(hp s hs).1, t, List.mem_cons_of_mem _ ht, he⟩
    · obtain ⟨a, ha, hp⟩ := ih (base ++ [strLower syn])
      refine ⟨strLower syn :: a, ?_, ?_⟩
      · simpa [List.foldl_cons, if_neg h, List.append_assoc] using ha
      · intro s hs
        rcases List.mem_cons.mp hs with h1 | h2
        · exact ⟨by rw [h1]; exact h, syn, List.mem_cons_self _ _, h1⟩
        · obtain ⟨t, ht, he⟩ := (hp s h2).2
          exact ⟨(hp s h2).1, t, List.mem_cons_of_mem _ ht, he⟩

lemma add_lowercase_synonyms_class_added (c c2 : OntClass)
    (h : add_lowercase_synonyms_class c = some c2) :
    c2.name = c.name ∧ c2.label = c.label ∧
    c2.hasExactSynonym = c.hasExactSynonym ∧ c2.attrs = c.attrs ∧
    ∃ added, c2.hasBroadSynonym = c.hasBroadSynonym ++ added ∧
      ∀ s ∈ added, s ∉ c.hasExactSynonym ∧
        (s = strLower (get_term_label c) ∨ ∃ t ∈ c.hasExactSynonym, s = strLower t) := by
  unfold add_lowercase_synonyms_class at h
  cases hl : c.label with
  | nil => rw [hl] at h; simp at h
  | cons l ls =>
    rw [hl] at h
    obtain ⟨a1, ha1, hp1⟩ := foldl_addLower c.hasExactSynonym c.hasExactSynonym c.hasBroadSynonym
    have hlab : get_term_label c = l := by unfold get_term_label; rw [hl]
    cases h
    refine ⟨rfl, rfl, rfl, rfl, ?_⟩
    by_cases hin : strLower l ∈ c.hasExactSynonym
    · refine ⟨a1, ?_, ?_⟩
      · simpa [if_pos hin] using ha1
      · intro s hs
        obtain ⟨t, ht, he⟩ := (hp1 s hs).2
        exact ⟨(hp1 s hs).1, Or.inr ⟨t, ht, he⟩⟩
    · refine ⟨a1 ++ [strLower l], ?_, ?_⟩
      · simp only [if_neg hin, ha1, List.append_assoc]
      · intro s hs
        rcases List.mem_append.mp hs with h1 | h2
        · obtain ⟨t, ht, he⟩ := (hp1 s h1).2
          exact ⟨(hp1 s h1).1, Or.inr ⟨t, ht, he⟩⟩
        · have hsl : s = strLower l := by simpa using h2
          exact ⟨by rw [hsl]; exact hin, Or.inl (by rw [hsl, hlab])⟩

/-- Claim C10: normalization reads `label[0]` of every class, so it fails
on a store containing an unlabeled concept, and succeeds on every store
whose concepts all carry at least one label. -/
theorem claim_c10 :
    (∀ ont : List OntClass, (∀ c ∈ ont, c.label ≠ []) →
      ∃ ont2, add_lowercase_synonyms ont = some ont2) ∧
    add_lowercase_synonyms [⟨"C1", [], ["Tumor"], [], []⟩] = none := by
  constructor
  · intro ont
    induction ont with
    | nil => exact fun _ => ⟨[], rfl⟩
    | cons c cs ih =>
      intro h
      obtain ⟨c2, hc2⟩ := add_lowercase_synonyms_class_isSome c (h c (List.mem_cons_self _ _))
      obtain ⟨cs2, hcs2⟩ := ih (fun x hx => h x (List.mem_cons_of_mem _ hx))
      exact ⟨c2 :: cs2, by unfold add_lowercase_synonyms; rw [hc2, hcs2]⟩
  · rfl

/-- Witness for C10: a fully labeled one-concept store normalizes
successfully. -/
theorem claim_c10_witness :
    ∃ ont2, add_lowercase_synonyms [⟨"N", ["Neoplasm"], [], [], []⟩] = some ont2 :=
  claim_c10.1 [⟨"N", ["Neoplasm"], [], [], []⟩] (by decide)

/-- Counterexample to C4: for a concept with exact synonyms
`["Tumor", "TUMOR"]` the Normalizer appends `"tumor"` twice (the
membership check consults only the original exact-synonym set), so the
broad-synonym collection does contain two case-insensitively equal
entries after normalization. -/
theorem claim_c4_counterexample :
    add_lowercase_synonyms [⟨"C1", ["X"], ["Tumor", "TUMOR"], [], []⟩] =
      some [⟨"C1", ["X"], ["Tumor", "TUMOR"], ["tumor", "tumor", "x"], []⟩] ∧
    ¬ List.Pairwise (fun a b => strLower a ≠ strLower b)
      ["tumor", "tumor", "x"] := by
  refine ⟨rfl, fun h => ?_⟩
  exact (List.rel_of_pairwise_cons h (by simp)) rfl

/-- Claim C4 amended: every entry the Normalizer appends to a concept's
broad-synonym collection is the lower-cased form of the concept's label
or of one of its exact synonyms and is not case-sensitively equal to any
member of the original exact-synonym set; entries case-insensitively
equal to existing broad synonyms (or to each other) can still be
appended. -/
theorem claim_c4_amended :
    ∀ (ont ont2 : List OntClass), add_lowercase_synonyms ont = some ont2 →
      ∀ c2 ∈ ont2, ∃ c ∈ ont, add_lowercase_synonyms_class c = some c2 ∧
        ∃ added, c2.hasBroadSynonym = c.hasBroadSynonym ++ added ∧
          ∀ s ∈ added, s ∉ c.hasExactSynonym ∧
            (s = strLower (get_term_label c) ∨ ∃ t ∈ c.hasExactSynonym, s = strLower t) := by
  intro ont
  induction ont with
  | nil =>
    intro ont2 h c2 hc2
    unfold add_lowercase_synonyms at h
    cases h
    simp at hc2
  | cons c cs ih =>
    intro ont2 h c2 hc2
    unfold add_lowercase_synonyms at h
    cases h1 : add_lowercase_synonyms_class c with
    | none => rw [h1] at h; simp at h
    | some c1 =>
      rw [h1] at h
      cases h2 : add_lowercase_synonyms cs with
      | none => rw [h2] at h; simp at h
      | some cs1 =>
        rw [h2] at h
        simp only [Option.some.injEq] at h
        rw [← h] at hc2
        rcases List.mem_cons.mp hc2 with hh | ht
        · subst hh
          obtain ⟨-, -, -, -, hadd⟩ := add_lowercase_synonyms_class_added c c2 h1
          exact ⟨c, List.mem_cons_self _ _, h1, hadd⟩
        · obtain ⟨c0, hc0, hcls, hadd⟩ := ih cs1 h2 c2 ht
          exact ⟨c0, List.mem_cons_of_mem _ hc0, hcls, hadd⟩

/-- Witness for the amended C4 at the Neoplasm/Tumor store. -/
theorem claim_c4_witness :
    ∃ c ∈ [(⟨"N", ["Neoplasm"], ["Tumor"], [], []⟩ : OntClass)],
      add_lowercase_synonyms_class c =
        some ⟨"N", ["Neoplasm"], ["Tumor"], ["tumor", "neoplasm"], []⟩ ∧
      ∃ added,
        (⟨"N", ["Neoplasm"], ["Tumor"], ["tumor", "neoplasm"], []⟩ : OntClass).hasBroadSynonym =
          c.hasBroadSynonym ++ added ∧
        ∀ s ∈ added, s ∉ c.hasExactSynonym ∧
          (s = strLower (get_term_label c) ∨
            ∃ t ∈ c.hasExactSynonym, s = strLower t) :=
  claim_c4_amended [⟨"N", ["Neoplasm"], ["Tumor"], [], []⟩]
    [⟨"N", ["Neoplasm"], ["Tumor"], ["tumor", "neoplasm"], []⟩] (by decide)
    ⟨"N", ["Neoplasm"], ["Tumor"], ["tumor", "neoplasm"], []⟩ (by decide)

lemma foldl_lower_append_indep (existing : List String) :
    ∀ (syns base : List String),
      syns.foldl (fun acc syn =>
        if strLower syn ∈ existing then acc else acc ++ [strLower syn]) base =
        base ++ syns.foldl (fun acc syn =>
          if strLower syn ∈ existing then acc else acc ++ [strLower syn]) [] := by
  intro syns
  induction syns with
  | nil => intro base; simp
  | cons syn rest ih =>
    intro base
    simp only [List.foldl_cons]
    by_cases h : strLower syn ∈ existing
    · rw [if_pos h, if_pos h, ih base]
    · rw [if_neg h, if_neg h, ih (base ++ [strLower syn]), ih ([] ++ [strLower syn])]
      simp [List.append_assoc]

lemma add_class_eq_of_label (c : OntClass) (l : String) (ls : List String)
    (hl : c.label = l :: ls) :
    ∃ A, ∀ b, add_lowercase_synonyms_class { c with hasBroadSynonym := b } =
      some { c with hasBroadSynonym := b ++ A } := by
  refine ⟨(c.hasExactSynonym.foldl (fun acc syn =>
      if strLower syn ∈ c.hasExactSynonym then acc else acc ++ [strLower syn]) []) ++
      (if (strLower l ∈ c.hasExactSynonym) then [] else [strLower l]), ?_⟩
  intro b
  unfold add_lowercase_synonyms_class
  simp only [hl]
  by_cases hin : strLower l ∈ c.hasExactSynonym
  · rw [if_pos hin, if_pos hin, foldl_lower_append_indep]
    simp
  · rw [if_neg hin, if_neg hin, foldl_lower_append_indep]
    simp [List.append_assoc]

lemma add_lowercase_synonyms_class_twice (c c2 c3 : OntClass)
    (h1 : add_lowercase_synonyms_class c = some c2)
    (h2 : add_lowercase_synonyms_class c2 = some c3) :
    c3.hasBroadSynonym =
      c2.hasBroadSynonym ++ c2.hasBroadSynonym.drop c.hasBroadSynonym.length := by
  cases hl : c.label with
  | nil =>
    unfold add_lowercase_synonyms_class at h1
    rw [hl] at h1
    simp at h1
  | cons l ls =>
    obtain ⟨A, hA⟩ := add_class_eq_of_label c l ls hl
    have e1 : add_lowercase_synonyms_class c =
        some { c with hasBroadSynonym := c.hasBroadSynonym ++ A } := hA c.hasBroadSynonym
    have hc2 : c2 = { c with hasBroadSynonym := c.hasBroadSynonym ++ A } :=
      (Option.some.inj (e1.symm.trans h1)).symm
    subst hc2
    have e2 := hA (c.hasBroadSynonym ++ A)
    have hc3 : c3 = { c with hasBroadSynonym := (c.hasBroadSynonym ++ A) ++ A } :=
      (Option.some.inj (e2.symm.trans h2)).symm
    subst hc3
    simp [List.append_assoc]

/-- Counterexample to C5: a second run of the Normalizer re-appends the
lower-cased entries (its membership check consults only the unchanged
exact-synonym set), so for the Neoplasm/Tumor concept two runs are not
the same as one and a duplicate `"neoplasm"` entry does get added. -/
theorem claim_c5_counterexample :
    (add_lowercase_synonyms [⟨"N", ["Neoplasm"], ["Tumor"], [], []⟩]).bind
        add_lowercase_synonyms =
      some [⟨"N", ["Neoplasm"], ["Tumor"],
        ["tumor", "neoplasm", "tumor", "neoplasm"], []⟩] ∧
    (add_lowercase_synonyms [⟨"N", ["Neoplasm"], ["Tumor"], [], []⟩]).bind
        add_lowercase_synonyms ≠
      add_lowercase_synonyms [⟨"N", ["Neoplasm"], ["Tumor"], [], []⟩] :=
  ⟨rfl, by decide⟩

/-- Claim C5 amended: running the Normalizer twice is not a no-op — the
second run appends the exact same lower-cased suffix again, so for the
Neoplasm/Tumor concept the broad synonyms after two runs are
`["tumor", "neoplasm", "tumor", "neoplasm"]`. -/
theorem claim_c5_amended :
    (∀ c c2 c3 : OntClass, add_lowercase_synonyms_class c = some c2 →
      add_lowercase_synonyms_class c2 = some c3 →
      c3.hasBroadSynonym =
        c2.hasBroadSynonym ++ c2.hasBroadSynonym.drop c.hasBroadSynonym.length) ∧
    (add_lowercase_synonyms [⟨"N", ["Neoplasm"], ["Tumor"], [], []⟩]).bind
        add_lowercase_synonyms =
      some [⟨"N", ["Neoplasm"], ["Tumor"],
        ["tumor", "neoplasm", "tumor", "neoplasm"], []⟩] :=
  ⟨add_lowercase_synonyms_class_twice, rfl⟩

/-- Witness for the amended C5 at the Neoplasm/Tumor concept. -/
theorem claim_c5_witness :
    (⟨"N", ["Neoplasm"], ["Tumor"], ["tumor", "neoplasm", "tumor", "neoplasm"], []⟩ :
        OntClass).hasBroadSynonym =
      (⟨"N", ["Neoplasm"], ["Tumor"], ["tumor", "neoplasm"], []⟩ :
        OntClass).hasBroadSynonym ++
        ((⟨"N", ["Neoplasm"], ["Tumor"], ["tumor", "neoplasm"], []⟩ :
          OntClass).hasBroadSynonym.drop
            (⟨"N", ["Neoplasm"], ["Tumor"], [], []⟩ : OntClass).hasBroadSynonym.length) :=
  claim_c5_amended.1 ⟨"N", ["Neoplasm"], ["Tumor"], [], []⟩
    ⟨"N", ["Neoplasm"], ["Tumor"], ["tumor", "neoplasm"], []⟩
    ⟨"N", ["Neoplasm"], ["Tumor"], ["tumor", "neoplasm", "tumor", "neoplasm"], []⟩
    (by decide) (by decide)

/-! ### Lemmas about the tiered matcher -/

lemma processBroad_nil (cp : Bool) (part : String) (acc : List Hit) :
    processBroad cp part [] acc = acc := rfl

lemma processBroad_cons (cp : Bool) (part : String) (t : OntClass)
    (ts : List OntClass) (acc : List Hit) :
    processBroad cp part (t :: ts) acc = processBroad cp part ts
      (let tl := get_term_label t
       if strLower tl = strLower part then
         if acc.any (fun r => decide (r.term = t ∧ r.matchType = "label" ∧
             (cp = true → r.matchedPart = part))) then
           acc
         else
           acc ++ [⟨t, "label", part, none⟩]
       else
         match t.hasExactSynonym.find? (fun syn => strLower syn = strLower part) with
         | some syn =>
           if strLower syn ≠ strLower tl then
             acc ++ [⟨t, "hasExactSynonym", part, some syn⟩]
           else
             acc
         | none => acc) := rfl

lemma processBroad_mono (cp : Bool) (part : String) :
    ∀ (brs : List OntClass) (acc : List Hit) (x : Hit),
      x ∈ acc → x ∈ processBroad cp part brs acc := by
  intro brs
  induction brs with
  | nil => intro acc x hx; simpa [processBroad_nil] using hx
  | cons t ts ih =>
    intro acc x hx
    rw [processBroad_cons]
    refine ih _ x ?_
    dsimp only
    split
    · split
      · exact hx
      · exact List.mem_append_left _ hx
    · split
      · split
        · exact List.mem_append_left _ hx
        · exact hx
      · exact hx

/-- The shape of every hit the program can emit: a `label` hit carries no
matched synonym, and the only other match type is `hasExactSynonym`. -/
def goodHit (h : Hit) : Prop :=
  (h.matchType = "label" ∧ h.matchedSynonym = none) ∨ h.matchType = "hasExactSynonym"

lemma foldl_good {α : Type} {f : List Hit → α → List Hit}
    (hf : ∀ a t, (∀ y ∈ a, goodHit y) → ∀ y ∈ f a t, goodHit y) :
    ∀ (l : List α) (acc : List Hit), (∀ y ∈ acc, goodHit y) →
      ∀ y ∈ l.foldl f acc, goodHit y := by
  intro l
  induction l with
  | nil => intro acc h y hy; exact h y hy
  | cons t ts ih =>
    intro acc h y hy
    exact ih (f acc t) (hf acc t h) y hy

lemma processBroad_good (cp : Bool) (part : String) :
    ∀ (brs : List OntClass) (acc : List Hit), (∀ y ∈ acc, goodHit y) →
      ∀ y ∈ processBroad cp part brs acc, goodHit y := by
  intro brs
  induction brs with
  | nil => intro acc h y hy; rw [processBroad_nil] at hy; exact h y hy
  | cons t ts ih =>
    intro acc hacc y hy
    rw [processBroad_cons] at hy
    refine ih _ ?_ y hy
    intro z hz
    dsimp only at hz
    split at hz
    · split at hz
      · exact hacc z hz
      · rcases List.mem_append.mp hz with h1 | h2
        · exact hacc z h1
        · rw [List.mem_singleton.mp h2]; exact Or.inl ⟨rfl, rfl⟩
    · split at hz
      · split at hz
        · rcases List.mem_append.mp hz with h1 | h2
          · exact hacc z h1
          · rw [List.mem_singleton.mp h2]; exact Or.inr rfl
        · exact hacc z hz
      · exact hacc z hz

lemma exactTier_good (ont : List OntClass) (q : String)
    (conds : List (String × String)) : ∀ y ∈ exactTier ont q conds, goodHit y := by
  intro y hy
  simp only [exactTier] at hy
  refine processBroad_good _ _ _ _ ?_ y hy
  refine foldl_good ?_ _ _ ?_
  · intro a t hg z hz
    split at hz
    · rcases List.mem_append.mp hz with h1 | h2
      · exact hg z h1
      · rw [List.mem_singleton.mp h2]; exact Or.inr rfl
    · exact hg z hz
  · intro z hz
    obtain ⟨t, -, ht⟩ := List.mem_map.mp hz
    rw [← ht]
    exact Or.inl ⟨rfl, rfl⟩

lemma processCombination_good (ont : List OntClass)
    (conds : List (String × String)) :
    ∀ (acc : List Hit) (comb : String), (∀ y ∈ acc, goodHit y) →
      ∀ y ∈ processCombination ont conds acc comb, goodHit y := by
  intro acc comb hacc y hy
  simp only [processCombination] at hy
  refine processBroad_good _ _ _ _ ?_ y hy
  refine foldl_good ?_ _ _ ?_
  · intro a t hg z hz
    split at hz
    · rcases List.mem_append.mp hz with h1 | h2
      · exact hg z h1
      · rw [List.mem_singleton.mp h2]; exact Or.inr rfl
    · exact hg z hz
  · intro z hz
    rcases List.mem_append.mp hz with h1 | h2
    · exact hacc z h1
    · obtain ⟨t, -, ht⟩ := List.mem_map.mp h2
      rw [← ht]
      exact Or.inl ⟨rfl, rfl⟩

lemma groupHits_good (ont : List OntClass) (conds : List (String × String))
    (combos : List String) (k : Nat) :
    ∀ y ∈ groupHits ont conds combos k, goodHit y := by
  intro y hy
  unfold groupHits at hy
  exact foldl_good (processCombination_good ont conds) _ _ (by simp) y hy

lemma searchGroups_good (ont : List OntClass) (conds : List (String × String))
    (combos : List String) :
    ∀ (ks : List Nat), ∀ y ∈ searchGroups ont conds combos ks, goodHit y := by
  intro ks
  induction ks with
  | nil => intro y hy; simp [searchGroups] at hy
  | cons k kt ih =>
    intro y hy
    simp only [searchGroups] at hy
    split at hy
    · exact ih y hy
    · exact groupHits_good ont conds combos k y hy

lemma search_ontology_term_good (ont : List OntClass) (q : String)
    (conds : List (String × String)) :
    ∀ y ∈ search_ontology_term ont q conds, goodHit y := by
  intro y hy
  simp only [search_ontology_term] at hy
  split at hy
  · exact searchGroups_good _ _ _ _ y hy
  · exact exactTier_good _ _ _ y hy

lemma foldl_mem_mono {α : Type} {f : List Hit → α → List Hit}
    (hf : ∀ a t x, x ∈ a → x ∈ f a t) :
    ∀ (l : List α) (acc : List Hit) (x : Hit), x ∈ acc → x ∈ l.foldl f acc := by
  intro l
  induction l with
  | nil => intro acc x hx; exact hx
  | cons t ts ih => intro acc x hx; exact ih (f acc t) x (hf acc t x hx)

/-- Claim C1: a query that case-sensitively equals some concept's label
makes the exact tier non-empty, so `search_ontology_term` (with no extra
conditions, the CLI default) returns exactly the exact-tier hits and the
decomposition tier is never consulted. -/
theorem claim_c1 (ont : List OntClass) (q : String)
    (hc : ∃ c ∈ ont, q ∈ c.label) :
    search_ontology_term ont q [] = exactTier ont q [] ∧
    exactTier ont q [] ≠ [] := by
  obtain ⟨c, hmem, hq⟩ := hc
  have hlabel : c ∈ searchBy ont "label" q [] := by
    unfold searchBy
    simp only [List.any_nil, Bool.false_eq_true, if_false, List.append_nil,
      List.mem_filter, List.all_cons, List.all_nil, Bool.and_true]
    refine ⟨hmem, ?_⟩
    simp [attrValues, hq]
  have hhit : (⟨c, "label", q, none⟩ : Hit) ∈ exactTier ont q [] := by
    simp only [exactTier]
    apply processBroad_mono
    refine foldl_mem_mono ?_ _ _ _ ?_
    · intro a t x hx
      split
      · exact List.mem_append_left _ hx
      · exact hx
    · exact List.mem_map_of_mem _ hlabel
  have hne : exactTier ont q [] ≠ [] := by
    intro h
    rw [h] at hhit
    exact absurd hhit (List.not_mem_nil _)
  refine ⟨?_, hne⟩
  simp only [search_ontology_term]
  rw [if_neg]
  intro hemp
  exact hne (List.isEmpty_iff.mp hemp)

/-- Witness for C1: the query `Breast Cancer` equals the concept label,
so the search result is the (non-empty) exact tier. -/
theorem claim_c1_witness :
    search_ontology_term [⟨"B", ["Breast Cancer"], [], ["breast cancer"], []⟩]
        "Breast Cancer" [] =
      exactTier [⟨"B", ["Breast Cancer"], [], ["breast cancer"], []⟩]
        "Breast Cancer" [] ∧
    exactTier [⟨"B", ["Breast Cancer"], [], ["breast cancer"], []⟩]
      "Breast Cancer" [] ≠ [] :=
  claim_c1 [⟨"B", ["Breast Cancer"], [], ["breast cancer"], []⟩] "Breast Cancer"
    (by decide)

lemma processBroad_syn_mem (cp : Bool) (part : String) (t : OntClass) (syn : String)
    (hlab : strLower (get_term_label t) ≠ strLower part)
    (hfind : t.hasExactSynonym.find? (fun s => strLower s = strLower part) = some syn)
    (hne : strLower syn ≠ strLower (get_term_label t)) :
    ∀ (brs : List OntClass) (acc : List Hit), t ∈ brs →
      (⟨t, "hasExactSynonym", part, some syn⟩ : Hit) ∈ processBroad cp part brs acc := by
  intro brs
  induction brs with
  | nil => intro acc h; simp at h
  | cons b bs ih =>
    intro acc hmem
    rw [processBroad_cons]
    rcases List.mem_cons.mp hmem with hb | hb
    · subst hb
      apply processBroad_mono
      dsimp only
      rw [if_neg hlab]
      simp only [hfind]
      rw [if_pos hne]
      exact List.mem_append_right _ (by simp)
    · exact ih _ hb

/-- Claim C6: in the broad-synonym step, a concept whose lower-cased
label differs from the lower-cased part but that owns an exact synonym
whose lower-cased form equals the lower-cased part yields an
`hasExactSynonym` hit carrying that synonym's original text (the first
such synonym; its lower-cased form necessarily differs from the
lower-cased label). -/
theorem claim_c6 (cp : Bool) (part : String) (brs : List OntClass)
    (acc : List Hit) (t : OntClass)
    (hmem : t ∈ brs)
    (hlab : strLower (get_term_label t) ≠ strLower part)
    (hex : ∃ s ∈ t.hasExactSynonym, strLower s = strLower part) :
    ∃ syn ∈ t.hasExactSynonym, strLower syn = strLower part ∧
      strLower syn ≠ strLower (get_term_label t) ∧
      (⟨t, "hasExactSynonym", part, some syn⟩ : Hit) ∈ processBroad cp part brs acc := by
  have hfind : ∃ syn,
      t.hasExactSynonym.find? (fun s => strLower s = strLower part) = some syn := by
    obtain ⟨s, hs, hsp⟩ := hex
    cases hf : t.hasExactSynonym.find? (fun s => strLower s = strLower part) with
    | some syn => exact ⟨syn, rfl⟩
    | none =>
      have := List.find?_eq_none.mp hf s hs
      simp [hsp] at this
  obtain ⟨syn, hfind⟩ := hfind
  have hsynmem : syn ∈ t.hasExactSynonym := List.mem_of_find?_eq_some hfind
  have hsynp : strLower syn = strLower part := by
    have := List.find?_some hfind
    simpa using this
  have hsynne : strLower syn ≠ strLower (get_term_label t) := by
    rw [hsynp]
    exact fun he => hlab he.symm
  exact ⟨syn, hsynmem, hsynp, hsynne,
    processBroad_syn_mem cp part t syn hlab hfind hsynne brs acc hmem⟩

/-- Witness for C6: query `tumor` against the Neoplasm concept whose
exact synonym is `Tumor` (after normalization) yields the
`hasExactSynonym` hit carrying `Tumor`. -/
theorem claim_c6_witness :
    ∃ syn ∈ (⟨"N", ["Neoplasm"], ["Tumor"], ["tumor", "neoplasm"], []⟩ :
        OntClass).hasExactSynonym,
      strLower syn = strLower "tumor" ∧
      strLower syn ≠
        strLower (get_term_label ⟨"N", ["Neoplasm"], ["Tumor"], ["tumor", "neoplasm"], []⟩) ∧
      (⟨⟨"N", ["Neoplasm"], ["Tumor"], ["tumor", "neoplasm"], []⟩,
          "hasExactSynonym", "tumor", some syn⟩ : Hit) ∈
        processBroad false "tumor"
          [⟨"N", ["Neoplasm"], ["Tumor"], ["tumor", "neoplasm"], []⟩] [] :=
  claim_c6 false "tumor" [⟨"N", ["Neoplasm"], ["Tumor"], ["tumor", "neoplasm"], []⟩]
    [] ⟨"N", ["Neoplasm"], ["Tumor"], ["tumor", "neoplasm"], []⟩
    (by decide) (by decide) (by decide)

lemma processBroad_label_suppress (cp : Bool) (part : String) (t : OntClass) :
    ∀ (brs : List OntClass) (acc : List Hit),
      acc.any (fun r => decide (r.term = t ∧ r.matchType = "label" ∧
        (cp = true → r.matchedPart = part))) = true →
      (processBroad cp part brs acc).countP
          (fun r => decide (r = (⟨t, "label", part, none⟩ : Hit))) =
        acc.countP (fun r => decide (r = (⟨t, "label", part, none⟩ : Hit))) := by
  intro brs
  induction brs with
  | nil => intro acc h; rw [processBroad_nil]
  | cons b bs ih =>
    intro acc hany
    rw [processBroad_cons]
    dsimp only
    split
    · split
      next hdup => exact ih acc hany
      next hdup =>
        by_cases hbt : b = t
        · subst hbt
          exact absurd hany hdup
        · have hne : (⟨b, "label", part, none⟩ : Hit) ≠ ⟨t, "label", part, none⟩ :=
            fun he => hbt (congrArg Hit.term he)
          have hany2 : (acc ++ [(⟨b, "label", part, none⟩ : Hit)]).any
              (fun r => decide (r.term = t ∧ r.matchType = "label" ∧
                (cp = true → r.matchedPart = part))) = true := by
            rw [List.any_append, hany]
            simp
          rw [ih _ hany2, List.countP_append, List.countP_cons, List.countP_nil]
          simp [hne]
    · split
      next syn hfind =>
        split
        next hsne =>
          have hne : (⟨b, "hasExactSynonym", part, some syn⟩ : Hit) ≠
              ⟨t, "label", part, none⟩ := by
            intro he
            have hmt := congrArg Hit.matchType he
            simp at hmt
          have hany2 : (acc ++ [(⟨b, "hasExactSynonym", part, some syn⟩ : Hit)]).any
              (fun r => decide (r.term = t ∧ r.matchType = "label" ∧
                (cp = true → r.matchedPart = part))) = true := by
            rw [List.any_append, hany]
            simp
          rw [ih _ hany2, List.countP_append, List.countP_cons, List.countP_nil]
          simp [hne]
        next hsne => exact ih acc hany
      next hfind => exact ih acc hany

/-- Claim C7: every hit returned by `search_ontology_term` is a `label`
or `hasExactSynonym` hit — never a broad-synonym kind — and the
broad-synonym loop never adds another `label` hit for a concept for which
one matching the dedup predicate is already accumulated. -/
theorem claim_c7 :
    (∀ (ont : List OntClass) (q : String) (conds : List (String × String)),
      ∀ h ∈ search_ontology_term ont q conds,
        h.matchType = "label" ∨ h.matchType = "hasExactSynonym") ∧
    (∀ (cp : Bool) (part : String) (brs : List OntClass) (acc : List Hit)
        (t : OntClass),
      acc.any (fun r => decide (r.term = t ∧ r.matchType = "label" ∧
        (cp = true → r.matchedPart = part))) = true →
      (processBroad cp part brs acc).countP
          (fun r => decide (r = (⟨t, "label", part, none⟩ : Hit))) =
        acc.countP (fun r => decide (r = (⟨t, "label", part, none⟩ : Hit)))) := by
  constructor
  · intro ont q conds h hh
    rcases search_ontology_term_good ont q conds h hh with ⟨h1, -⟩ | h2
    · exact Or.inl h1
    · exact Or.inr h2
  · intro cp part brs acc t hany
    exact processBroad_label_suppress cp part t brs acc hany

/-- Witness for C7: with a label hit for the Breast Cancer concept
already accumulated, the broad-synonym loop adds no second one. -/
theorem claim_c7_witness :
    (processBroad false "Breast Cancer"
        [⟨"B", ["Breast Cancer"], [], ["breast cancer"], []⟩]
        [⟨⟨"B", ["Breast Cancer"], [], ["breast cancer"], []⟩, "label",
          "Breast Cancer", none⟩]).countP
        (fun r => decide (r = (⟨⟨"B", ["Breast Cancer"], [], ["breast cancer"], []⟩,
          "label", "Breast Cancer", none⟩ : Hit))) =
      ([(⟨⟨"B", ["Breast Cancer"], [], ["breast cancer"], []⟩, "label",
          "Breast Cancer", none⟩ : Hit)]).countP
        (fun r => decide (r = (⟨⟨"B", ["Breast Cancer"], [], ["breast cancer"], []⟩,
          "label", "Breast Cancer", none⟩ : Hit))) :=
  claim_c7.2 false "Breast Cancer"
    [⟨"B", ["Breast Cancer"], [], ["breast cancer"], []⟩]
    [⟨⟨"B", ["Breast Cancer"], [], ["breast cancer"], []⟩, "label",
      "Breast Cancer", none⟩]
    ⟨"B", ["Breast Cancer"], [], ["breast cancer"], []⟩ (by decide)

lemma sortedKeysDesc_pairwise (combos : List String) :
    List.Pairwise (fun a b => a > b) (sortedKeysDesc combos) := by
  unfold sortedKeysDesc
  apply List.Pairwise.filter
  rw [List.pairwise_reverse]
  exact List.pairwise_lt_range _

lemma searchGroups_all_empty (ont : List OntClass)
    (conds : List (String × String)) (combos : List String) :
    ∀ (ks : List Nat), (∀ k ∈ ks, groupHits ont conds combos k = []) →
      searchGroups ont conds combos ks = [] := by
  intro ks
  induction ks with
  | nil => intro _; rfl
  | cons k kt ih =>
    intro h
    simp only [searchGroups]
    rw [if_pos (by rw [List.isEmpty_iff]; exact h k (List.mem_cons_self _ _))]
    exact ih (fun j hj => h j (List.mem_cons_of_mem _ hj))

lemma searchGroups_first (ont : List OntClass)
    (conds : List (String × String)) (combos : List String) :
    ∀ (ks : List Nat), List.Pairwise (fun a b => a > b) ks →
      ∀ k ∈ ks, groupHits ont conds combos k ≠ [] →
      (∀ j ∈ ks, k < j → groupHits ont conds combos j = []) →
      searchGroups ont conds combos ks = groupHits ont conds combos k := by
  intro ks
  induction ks with
  | nil => intro _ k hk; simp at hk
  | cons k0 kt ih =>
    intro hpw k hk hne hbig
    rcases List.mem_cons.mp hk with hk0 | hkt
    · subst hk0
      simp only [searchGroups]
      rw [if_neg (fun hemp => hne (List.isEmpty_iff.mp hemp))]
    · have hk0k : k < k0 := (List.pairwise_cons.mp hpw).1 k hkt
      have h0 : groupHits ont conds combos k0 = [] :=
        hbig k0 (List.mem_cons_self _ _) hk0k
      simp only [searchGroups]
      rw [if_pos (by rw [List.isEmpty_iff]; exact h0)]
      exact ih (List.pairwise_cons.mp hpw).2 k hkt hne
        (fun j hj hlt => hbig j (List.mem_cons_of_mem _ hj) hlt)

/-- Claim C3: when the exact tier is empty, the distinct word counts are
visited in strictly decreasing order, the search returns the accumulated
hits of the first word-count group that yields any (independently of
shorter groups), and the empty list when no group yields a hit. -/
theorem claim_c3 (ont : List OntClass) (conds : List (String × String))
    (q : String) (hempty : exactTier ont q conds = []) :
    List.Pairwise (fun a b => a > b)
      (sortedKeysDesc (generate_word_combinations q)) ∧
    ((∀ k ∈ sortedKeysDesc (generate_word_combinations q),
        groupHits ont conds (generate_word_combinations q) k = []) →
      search_ontology_term ont q conds = []) ∧
    (∀ k ∈ sortedKeysDesc (generate_word_combinations q),
      groupHits ont conds (generate_word_combinations q) k ≠ [] →
      (∀ j ∈ sortedKeysDesc (generate_word_combinations q), k < j →
        groupHits ont conds (generate_word_combinations q) j = []) →
      search_ontology_term ont q conds =
        groupHits ont conds (generate_word_combinations q) k) := by
  have hsearch : search_ontology_term ont q conds =
      searchGroups ont conds (generate_word_combinations q)
        (sortedKeysDesc (generate_word_combinations q)) := by
    simp only [search_ontology_term]
    rw [if_pos (by rw [List.isEmpty_iff]; exact hempty)]
    rfl
  refine ⟨sortedKeysDesc_pairwise _, ?_, ?_⟩
  · intro hall
    rw [hsearch]
    exact searchGroups_all_empty ont conds _ _ hall
  · intro k hk hne hbig
    rw [hsearch]
    exact searchGroups_first ont conds _ _ (sortedKeysDesc_pairwise _) k hk hne hbig

/-- Witness for C3: for `Advanced Breast Cancer` with no 3-word match,
the search result is exactly the 2-word group (the `Breast Cancer` label
hit); the 1-word `Cancer` concept is never reached. -/
theorem claim_c3_witness :
    search_ontology_term
      [⟨"B", ["Breast Cancer"], [], ["breast cancer"], []⟩,
       ⟨"C", ["Cancer"], [], ["cancer"], []⟩]
      "Advanced Breast Cancer" [] =
    groupHits
      [⟨"B", ["Breast Cancer"], [], ["breast cancer"], []⟩,
       ⟨"C", ["Cancer"], [], ["cancer"], []⟩] []
      (generate_word_combinations "Advanced Breast Cancer") 2 :=
  (claim_c3
    [⟨"B", ["Breast Cancer"], [], ["breast cancer"], []⟩,
     ⟨"C", ["Cancer"], [], ["cancer"], []⟩] [] "Advanced Breast Cancer"
    (by decide)).2.2 2 (by decide) (by decide) (by decide)

/-- Claim C9: a whitespace-only input line produces no output row; a
non-empty stripped query with no hits produces exactly one row with the
query and five empty columns; otherwise one row per hit is produced in
matcher order, and the matched-synonym column is blank whenever the match
kind is `label`. -/
theorem claim_c9 (ont : List OntClass) (conds : List (String × String))
    (line : String) :
    (pyStrip line = "" → processLine ont conds line = []) ∧
    (pyStrip line ≠ "" → search_ontology_term ont (pyStrip line) conds = [] →
      processLine ont conds line = [[pyStrip line, "", "", "", "", ""]]) ∧
    (pyStrip line ≠ "" → search_ontology_term ont (pyStrip line) conds ≠ [] →
      processLine ont conds line =
        (search_ontology_term ont (pyStrip line) conds).map
          (formatRow (pyStrip line)) ∧
      ∀ h ∈ search_ontology_term ont (pyStrip line) conds,
        h.matchType = "label" →
          formatRow (pyStrip line) h =
            [pyStrip line, h.matchedPart, h.term.name, "label",
             get_term_label h.term, ""]) := by
  refine ⟨?_, ?_, ?_⟩
  · intro h
    simp only [processLine]
    rw [if_pos h]
  · intro hq hres
    simp only [processLine]
    rw [if_neg hq]
    simp only [report]
    rw [if_pos (by rw [List.isEmpty_iff]; exact hres)]
  · intro hq hres
    constructor
    · simp only [processLine]
      rw [if_neg hq]
      simp only [report]
      rw [if_neg (fun hemp => hres (List.isEmpty_iff.mp hemp))]
    · intro h hh hlab
      rcases search_ontology_term_good ont (pyStrip line) conds h hh with ⟨-, hnone⟩ | hsyn
      · simp [formatRow, hlab, hnone]
      · rw [hlab] at hsyn
        exact absurd hsyn (by decide)

/-- Witness for C9: a whitespace-only line yields no row, and an
unmatched query yields the single blank-filled row. -/
theorem claim_c9_witness :
    processLine [⟨"B", ["Breast Cancer"], [], ["breast cancer"], []⟩] [] "  " = [] ∧
    processLine [⟨"B", ["Breast Cancer"], [], ["breast cancer"], []⟩] [] "zzz" =
      [["zzz", "", "", "", "", ""]] :=
  ⟨(claim_c9 [⟨"B", ["Breast Cancer"], [], ["breast cancer"], []⟩] [] "  ").1
      (by decide),
   (claim_c9 [⟨"B", ["Breast Cancer"], [], ["breast cancer"], []⟩] [] "zzz").2.1
      (by decide) (by decide)⟩

/-! ### Lemmas about the Word Decomposer -/

lemma len_windowsOfLen (w : List String) (L : Nat) :
    (windowsOfLen w L).length = w.length - L + 1 := by
  simp [windowsOfLen]

lemma len_combosDown (w : List String) :
    ∀ L, L ≤ w.length →
      (combosDown w L).length = ∑ k ∈ Finset.range L, (w.length - k) := by
  intro L
  induction L with
  | zero => intro _; simp [combosDown]
  | succ m ih =>
    intro hle
    have hm : m ≤ w.length := Nat.le_of_succ_le hle
    simp only [combosDown, List.length_append, len_windowsOfLen, ih hm,
      Finset.sum_range_succ]
    omega

lemma two_mul_sum_range_sub : ∀ m : Nat,
    2 * ∑ k ∈ Finset.range m, (m - k) = m * (m + 1) := by
  intro m
  induction m with
  | zero => simp
  | succ p ih =>
    have hstep : ∑ k ∈ Finset.range (p + 1), (p + 1 - k) =
        (∑ k ∈ Finset.range p, (p - k)) + (p + 1) := by
      rw [Finset.sum_range_succ]
      have hterm : ∀ k ∈ Finset.range p, p + 1 - k = (p - k) + 1 :=
        fun k hk => by have := Finset.mem_range.mp hk; omega
      rw [Finset.sum_congr rfl hterm, Finset.sum_add_distrib, Finset.sum_const,
        Finset.card_range]
      simp
      omega
    rw [hstep]
    calc 2 * ((∑ k ∈ Finset.range p, (p - k)) + (p + 1))
        = 2 * (∑ k ∈ Finset.range p, (p - k)) + 2 * (p + 1) := by ring
      _ = p * (p + 1) + 2 * (p + 1) := by rw [ih]
      _ = (p + 1) * (p + 1 + 1) := by ring

lemma combosDown_mono_len (w : List String) :
    ∀ (len L : Nat), len ≤ L →
      (combosDown w len).length ≤ (combosDown w L).length := by
  intro len L h
  induction L with
  | zero => rw [Nat.le_zero.mp h]
  | succ m ih =>
    rcases Nat.eq_or_lt_of_le h with he | hlt
    · rw [he]
    · calc (combosDown w len).length ≤ (combosDown w m).length :=
            ih (Nat.lt_succ_iff.mp hlt)
        _ ≤ (combosDown w (m + 1)).length := by
            simp only [combosDown, List.length_append]
            omega

lemma combosDown_drop (w : List String) :
    ∀ (L len : Nat), len ≤ L →
      (combosDown w L).drop
          ((combosDown w L).length - (combosDown w len).length) =
        combosDown w len := by
  intro L
  induction L with
  | zero =>
    intro len h
    rw [Nat.le_zero.mp h]
    simp
  | succ m ih =>
    intro len h
    rcases Nat.eq_or_lt_of_le h with he | hlt
    · rw [he, Nat.sub_self, List.drop_zero]
    · have hlm : len ≤ m := Nat.lt_succ_iff.mp hlt
      have hmono := combosDown_mono_len w len m hlm
      have hwin : (windowsOfLen w (m + 1)).length = w.length - (m + 1) + 1 :=
        len_windowsOfLen w (m + 1)
      simp only [combosDown, List.length_append, hwin]
      have hoff : w.length - (m + 1) + 1 + (combosDown w m).length -
            (combosDown w len).length =
          (w.length - (m + 1) + 1) +
            ((combosDown w m).length - (combosDown w len).length) := by omega
      rw [hoff, ← List.drop_drop, ← hwin, List.drop_left]
      exact ih len hlm

lemma combosDown_sub_len (w : List String) (len : Nat) (h : len ≤ w.length) :
    (combosDown w w.length).length - (combosDown w len).length =
      (w.length - len) * (w.length - len + 1) / 2 := by
  have hn := len_combosDown w w.length (le_refl _)
  have hl := len_combosDown w len h
  have hsplit : ∑ k ∈ Finset.range w.length, (w.length - k) =
      (∑ k ∈ Finset.range len, (w.length - k)) +
        ∑ k ∈ Finset.Ico len w.length, (w.length - k) := by
    rw [Finset.range_eq_Ico, ← Finset.sum_Ico_consecutive _ (Nat.zero_le len) h,
      ← Finset.range_eq_Ico]
  have hre : ∑ k ∈ Finset.Ico len w.length, (w.length - k) =
      ∑ j ∈ Finset.range (w.length - len), (w.length - len - j) := by
    rw [Finset.sum_Ico_eq_sum_range]
    refine Finset.sum_congr rfl ?_
    intro j hj
    have := Finset.mem_range.mp hj
    omega
  have hg := two_mul_sum_range_sub (w.length - len)
  rw [hn, hl, hsplit, hre]
  generalize hA : (∑ k ∈ Finset.range len, (w.length - k)) = A
  generalize hB : (∑ j ∈ Finset.range (w.length - len), (w.length - len - j)) = B at hg ⊢
  generalize hM : (w.length - len) * (w.length - len + 1) = M at hg ⊢
  omega

/-- Claim C2: the decomposer emits exactly `n*(n+1)/2` sub-phrases for an
`n`-token input, grouped by window length in strictly decreasing order
with each group listing windows in left-to-right offset order
(the group of length `len` is the slice starting at
`(n-len)*(n-len+1)/2` of size `n-len+1`); empty or whitespace-only input
yields the empty sequence, and `"Breast Cancer"` decomposes to
`["Breast Cancer", "Breast", "Cancer"]`. -/
theorem claim_c2 :
    (∀ text : String,
      (generate_word_combinations text).length =
        (splitWords text).length * ((splitWords text).length + 1) / 2) ∧
    (∀ (text : String) (len : Nat), 1 ≤ len → len ≤ (splitWords text).length →
      ((generate_word_combinations text).drop
          (((splitWords text).length - len) *
            ((splitWords text).length - len + 1) / 2)).take
          ((splitWords text).length - len + 1) =
        windowsOfLen (splitWords text) len) ∧
    (∀ text : String, pyStrip text = "" → generate_word_combinations text = []) ∧
    generate_word_combinations "Breast Cancer" =
      ["Breast Cancer", "Breast", "Cancer"] := by
  refine ⟨?_, ?_, ?_, by decide⟩
  · intro text
    show (combosDown (splitWords text) (splitWords text).length).length = _
    have h := len_combosDown (splitWords text) (splitWords text).length (le_refl _)
    have hg := two_mul_sum_range_sub (splitWords text).length
    rw [h]
    generalize hB : (∑ k ∈ Finset.range (splitWords text).length,
      ((splitWords text).length - k)) = B at hg ⊢
    generalize hM : (splitWords text).length * ((splitWords text).length + 1) = M at hg ⊢
    omega
  · intro text len h1 h2
    obtain ⟨m, rfl⟩ : ∃ m, len = m + 1 := ⟨len - 1, by omega⟩
    show ((combosDown (splitWords text) (splitWords text).length).drop _).take _ = _
    have hdrop := combosDown_drop (splitWords text) (splitWords text).length (m + 1) h2
    rw [combosDown_sub_len (splitWords text) (m + 1) h2] at hdrop
    rw [hdrop]
    simp only [combosDown]
    rw [List.take_left' (len_windowsOfLen (splitWords text) (m + 1))]
  · intro text h
    have hsw : splitWords text = [] := by
      unfold splitWords
      rw [h]
      rfl
    show combosDown (splitWords text) (splitWords text).length = []
    rw [hsw]
    rfl

/-- Witness for C2: the 1-word group of `Breast Cancer` is the slice
`["Breast", "Cancer"]` in left-to-right order. -/
theorem claim_c2_witness :
    ((generate_word_combinations "Breast Cancer").drop
        (((splitWords "Breast Cancer").length - 1) *
          ((splitWords "Breast Cancer").length - 1 + 1) / 2)).take
        ((splitWords "Breast Cancer").length - 1 + 1) =
      windowsOfLen (splitWords "Breast Cancer") 1 :=
  claim_c2.2.1 "Breast Cancer" 1 (by decide) (by decide)
